import Mathlib

/-!
Verification development for the `basel` architecture-metrics tool
(`src/components.py`, `src/dtos.py`).

The Python code is embedded shallowly:

* Python `set`s of strings are modelled as duplicate-free `List String`
  values built with `insertOnce` (membership-faithful; iteration order of
  CPython sets is irrelevant to every property proved here).
* The runtime import environment (`importlib.import_module` succeeding or
  raising `ImportError`/`ModuleNotFoundError`) is abstracted as a predicate
  `importable : String → Bool` supplied to each definition that performs a
  dynamic import.
* The base classes `Component` / `ComponentLoader` live in
  `src/icomponents.py`, which is not part of the sources provided; the
  handful of inherited members the code uses (`add_dependency`, `add_class`,
  `calculate_instability`, `calculate_abstraction`, `get_distance`,
  `ignore_deps`, and the backing fields) are modelled from the spec and
  marked as such in their doc comments.
* Fallible code (a dynamic import of a dependency name with no exception
  guard) is modelled in `Except`.
-/

namespace Basel

/-- Insert a string into a set-as-list exactly when it is absent;
this is the membership behaviour of Python `set.add`. -/
def insertOnce (x : String) (s : List String) : List String :=
  if x ∈ s then s else s ++ [x]

theorem mem_insertOnce_self (x : String) (s : List String) : x ∈ insertOnce x s := by
  unfold insertOnce
  by_cases h : x ∈ s
  · simp [h]
  · simp [h]

theorem mem_insertOnce_of_mem {y : String} (x : String) {s : List String}
    (h : y ∈ s) : y ∈ insertOnce x s := by
  unfold insertOnce
  by_cases hx : x ∈ s
  · simpa [hx]
  · simp [hx, h]

theorem mem_of_mem_insertOnce {x y : String} {s : List String}
    (h : y ∈ insertOnce x s) : y = x ∨ y ∈ s := by
  unfold insertOnce at h
  by_cases hx : x ∈ s
  · simp only [hx, if_true] at h
    exact Or.inr h
  · simp only [hx, if_false, List.mem_append, List.mem_singleton] at h
    tauto

theorem insertOnce_of_mem {x : String} {s : List String} (h : x ∈ s) :
    insertOnce x s = s := by
  unfold insertOnce
  simp [h]

theorem insertOnce_ne_nil (x : String) (s : List String) : insertOnce x s ≠ [] := by
  unfold insertOnce
  by_cases h : x ∈ s
  · simp only [h, if_true]
    rintro rfl
    cases h
  · simp [h]

theorem nodup_insertOnce (x : String) {s : List String} (h : s.Nodup) :
    (insertOnce x s).Nodup := by
  unfold insertOnce
  by_cases hx : x ∈ s
  · simpa [hx]
  · simp [hx, List.nodup_append, h]

theorem length_insertOnce_le (x : String) (s : List String) :
    (insertOnce x s).length ≤ s.length + 1 := by
  unfold insertOnce
  by_cases hx : x ∈ s
  · simp [hx]
  · simp [hx]

/-- An import statement as seen by `ast.walk` in
`ModuleComponent.get_dependencies`: `ast.Import` (with its alias names),
`ast.ImportFrom` (base module plus alias names), or any other AST node
(which `_eval_dependency` maps to the empty set). -/
inductive ImportNode where
  | imp (names : List String)
  | impFrom (module : String) (names : List String)
  | other
  deriving DecidableEq, Repr

/-- The f-string `f"{dep.module}.{alias.name}"`. -/
def dotted (m a : String) : String := m ++ "." ++ a

/-- The `modules` set that `_eval_dependency` accumulates over the alias
list of an `ast.ImportFrom` node: each `module.name` that `_import_module`
can import joins the set (`_import_module`, src/components.py:81-87,
absorbs `ImportError` and returns `None`). -/
def fromModules (importable : String → Bool) (m : String) (names : List String) :
    List String :=
  names.foldl
    (fun s a => if importable (dotted m a) then insertOnce (dotted m a) s else s) []

/-- Embeds `ModuleComponent._eval_dependency` (src/components.py:89-108).
For `ast.Import`, every alias name joins the set.  For `ast.ImportFrom`,
the resolvable `module.name` entries join the set; afterwards, if
`len(modules) != len(dep.names)`, the bare parent module is added once. -/
def evalDependency (importable : String → Bool) : ImportNode → List String
  | .imp names => names.foldl (fun s a => insertOnce a s) []
  | .impFrom m names =>
      if (fromModules importable m names).length ≠ names.length
      then insertOnce m (fromModules importable m names)
      else fromModules importable m names
  | .other => []

theorem foldl_insertOnce_mem_acc {y : String} (l : List String) :
    ∀ s : List String, y ∈ s → y ∈ l.foldl (fun acc a => insertOnce a acc) s := by
  induction l with
  | nil => intro s h; simpa using h
  | cons a l ih =>
      intro s h
      exact ih (insertOnce a s) (mem_insertOnce_of_mem a h)

theorem foldl_insertOnce_mem {y : String} {l : List String} (h : y ∈ l) :
    ∀ s : List String, y ∈ l.foldl (fun acc a => insertOnce a acc) s := by
  induction l with
  | nil => cases h
  | cons a l ih =>
      intro s
      rcases List.mem_cons.mp h with rfl | hmem
      · exact foldl_insertOnce_mem_acc l (insertOnce y s) (mem_insertOnce_self y s)
      · exact ih hmem (insertOnce a s)

theorem foldl_insertOnce_nodup (l : List String) :
    ∀ s : List String, s.Nodup → (l.foldl (fun acc a => insertOnce a acc) s).Nodup := by
  induction l with
  | nil => intro s h; simpa using h
  | cons a l ih => intro s h; exact ih (insertOnce a s) (nodup_insertOnce a h)

theorem foldl_condInsert_mem_acc (p : String → Bool) (f : String → String)
    {y : String} (l : List String) :
    ∀ s : List String, y ∈ s →
      y ∈ l.foldl (fun acc a => if p a then insertOnce (f a) acc else acc) s := by
  induction l with
  | nil => intro s h; simpa using h
  | cons a l ih =>
      intro s h
      by_cases hp : p a
      · simpa [hp] using ih (insertOnce (f a) s) (mem_insertOnce_of_mem (f a) h)
      · simpa [hp] using ih s h

theorem foldl_condInsert_mem (p : String → Bool) (f : String → String)
    {x : String} {l : List String} (hx : x ∈ l) (hp : p x = true) :
    ∀ s : List String,
      f x ∈ l.foldl (fun acc a => if p a then insertOnce (f a) acc else acc) s := by
  induction l with
  | nil => cases hx
  | cons a l ih =>
      intro s
      rcases List.mem_cons.mp hx with rfl | hmem
      · simp only [List.foldl_cons, hp, if_true]
        exact foldl_condInsert_mem_acc p f l (insertOnce (f x) s) (mem_insertOnce_self (f x) s)
      · by_cases hpa : p a
        · simpa [hpa] using ih hmem (insertOnce (f a) s)
        · simpa [hpa] using ih hmem s

theorem foldl_condInsert_nodup (p : String → Bool) (f : String → String)
    (l : List String) :
    ∀ s : List String, s.Nodup →
      (l.foldl (fun acc a => if p a then insertOnce (f a) acc else acc) s).Nodup := by
  induction l with
  | nil => intro s h; simpa using h
  | cons a l ih =>
      intro s h
      by_cases hp : p a
      · simpa [hp] using ih (insertOnce (f a) s) (nodup_insertOnce (f a) h)
      · simpa [hp] using ih s h

theorem foldl_condInsert_length (p : String → Bool) (f : String → String)
    (l : List String) :
    ∀ s : List String,
      (l.foldl (fun acc a => if p a then insertOnce (f a) acc else acc) s).length ≤
        s.length + l.countP p := by
  induction l with
  | nil => intro s; simp
  | cons a l ih =>
      intro s
      by_cases hp : p a
      · have h1 := ih (insertOnce (f a) s)
        have h2 := length_insertOnce_le (f a) s
        simp only [List.foldl_cons, hp, if_true]
        calc (l.foldl (fun acc a => if p a then insertOnce (f a) acc else acc)
                (insertOnce (f a) s)).length
            ≤ (insertOnce (f a) s).length + l.countP p := h1
          _ ≤ s.length + 1 + l.countP p := by omega
          _ = s.length + (a :: l).countP p := by
              simp [List.countP_cons, hp]; omega
      · have h1 := ih s
        simp only [List.foldl_cons, hp, if_false]
        calc (l.foldl (fun acc a => if p a then insertOnce (f a) acc else acc) s).length
            ≤ s.length + l.countP p := h1
          _ ≤ s.length + (a :: l).countP p := by
              simp [List.countP_cons, hp]

theorem countP_lt_length {p : String → Bool} {l : List String} {a : String}
    (ha : a ∈ l) (hpa : p a = false) : l.countP p < l.length := by
  induction l with
  | nil => cases ha
  | cons b l ih =>
      rcases List.mem_cons.mp ha with rfl | hmem
      · have := List.countP_le_length (l := l) (p := p)
        simp [List.countP_cons, hpa]
        omega
      · by_cases hpb : p b
        · have := ih hmem
          simp [List.countP_cons, hpb]
          omega
        · have := ih hmem
          simp [List.countP_cons, hpb]
          omega

/-- Membership in the `modules` set that `_eval_dependency` builds for an
`ast.ImportFrom` node: a resolvable `module.name` is always recorded. -/
theorem evalDependency_impFrom_resolvable (importable : String → Bool)
    (m : String) (names : List String) {a : String} (ha : a ∈ names)
    (himp : importable (dotted m a) = true) :
    dotted m a ∈ evalDependency importable (.impFrom m names) := by
  have hmem : dotted m a ∈ fromModules importable m names :=
    foldl_condInsert_mem (fun a => importable (dotted m a)) (dotted m) ha himp []
  simp only [evalDependency]
  by_cases hlen : (fromModules importable m names).length ≠ names.length
  · rw [if_pos hlen]
    exact mem_insertOnce_of_mem m hmem
  · rw [if_neg hlen]
    exact hmem

/-- If some name in an `ast.ImportFrom` list fails to resolve, the bare
parent module is recorded. -/
theorem evalDependency_impFrom_parent (importable : String → Bool)
    (m : String) (names : List String) {a : String} (ha : a ∈ names)
    (himp : importable (dotted m a) = false) :
    m ∈ evalDependency importable (.impFrom m names) := by
  have hlen : (fromModules importable m names).length < names.length := by
    have h1 : (fromModules importable m names).length ≤
        0 + names.countP (fun a => importable (dotted m a)) :=
      foldl_condInsert_length (fun a => importable (dotted m a)) (dotted m) names []
    have h2 : names.countP (fun a => importable (dotted m a)) < names.length :=
      countP_lt_length ha himp
    omega
  have hne : (fromModules importable m names).length ≠ names.length := Nat.ne_of_lt hlen
  simp only [evalDependency]
  rw [if_pos hne]
  exact mem_insertOnce_self m (fromModules importable m names)

/-- A plain `import X` statement records every alias name. -/
theorem evalDependency_imp (importable : String → Bool)
    (names : List String) {a : String} (ha : a ∈ names) :
    a ∈ evalDependency importable (.imp names) := by
  simp only [evalDependency]
  exact foldl_insertOnce_mem ha []

theorem evalDependency_nodup (importable : String → Bool) (node : ImportNode) :
    (evalDependency importable node).Nodup := by
  cases node with
  | imp names => exact foldl_insertOnce_nodup names [] List.nodup_nil
  | impFrom m names =>
      have hnd : (fromModules importable m names).Nodup :=
        foldl_condInsert_nodup (fun a => importable (dotted m a)) (dotted m) names []
          List.nodup_nil
      simp only [evalDependency]
      by_cases hlen : (fromModules importable m names).length ≠ names.length
      · rw [if_pos hlen]
        exact nodup_insertOnce m hnd
      · rw [if_neg hlen]
        exact hnd
  | other => simp [evalDependency]

/-- A Python class object as far as `ModuleComponent.load_classes` inspects
it: the value of `obj.__module__` and the result of
`inspect.isabstract(obj)`.  The list of such objects visible in a loaded
module (`inspect.getmembers(module)` filtered by `inspect.isclass`) is an
input of the model. -/
structure PyClass where
  module : String
  isAbstract : Bool
  deriving DecidableEq, Repr

/-- One `ModuleComponent` / SourceUnit.  `importNodes` is the parsed content
of the unit's backing source file (the import statements `ast.walk` yields
in `get_dependencies`); `members` is the class listing `inspect.getmembers`
yields in `load_classes`.  The remaining fields model the state inherited
from the missing base class `Component` (src/icomponents.py), following the
spec's data model: `ext_dependencies` is `external_dependencies` (outgoing
edges, stored by dependency name), `internal_dependents` the incoming
edges, the two class lists back `add_class`, and the three `Option ℚ`
fields are the memoized metric values (spec: cached ratios, computed
once). -/
structure Comp where
  importNodes : List ImportNode
  members : List PyClass
  ext_dependencies : List String
  internal_dependents : List String
  abstract_classes : List PyClass
  no_abstract_classes : List PyClass
  instability : Option ℚ
  abstraction : Option ℚ
  distance : Option ℚ
  deriving DecidableEq, Repr

/-- Embeds `ModuleComponent.get_dependencies` (src/components.py:110-119): parse
the unit's source, walk every AST node, and union the per-node sets from
`_eval_dependency`. -/
def get_dependencies (importable : String → Bool) (c : Comp) : List String :=
  c.importNodes.foldl
    (fun s node => (evalDependency importable node).foldl (fun acc x => insertOnce x acc) s) []

theorem get_dependencies_aux_mem_acc {y : String} (nodes : List ImportNode)
    (importable : String → Bool) :
    ∀ s : List String, y ∈ s →
      y ∈ nodes.foldl
        (fun s node => (evalDependency importable node).foldl (fun acc x => insertOnce x acc) s) s := by
  induction nodes with
  | nil => intro s h; simpa using h
  | cons n nodes ih =>
      intro s h
      exact ih _ (foldl_insertOnce_mem_acc (evalDependency importable n) s h)

theorem mem_foldl_union_of_node {importable : String → Bool}
    {node : ImportNode} {y : String} (hy : y ∈ evalDependency importable node)
    (nodes : List ImportNode) :
    ∀ s : List String, node ∈ nodes →
      y ∈ nodes.foldl
        (fun s node => (evalDependency importable node).foldl (fun acc x => insertOnce x acc) s) s := by
  induction nodes with
  | nil => intro s h; cases h
  | cons n nodes ih =>
      intro s h
      rcases List.mem_cons.mp h with rfl | hmem
      · exact get_dependencies_aux_mem_acc nodes importable _ (foldl_insertOnce_mem hy s)
      · exact ih _ hmem

theorem mem_get_dependencies_of_node {importable : String → Bool} {c : Comp}
    {node : ImportNode} (hnode : node ∈ c.importNodes) {y : String}
    (hy : y ∈ evalDependency importable node) :
    y ∈ get_dependencies importable c :=
  mem_foldl_union_of_node hy c.importNodes [] hnode

theorem get_dependencies_nodup (importable : String → Bool) (c : Comp) :
    (get_dependencies importable c).Nodup := by
  unfold get_dependencies
  generalize c.importNodes = nodes
  have : ∀ s : List String, s.Nodup →
      (nodes.foldl
        (fun s node => (evalDependency importable node).foldl (fun acc x => insertOnce x acc) s) s).Nodup := by
    induction nodes with
    | nil => intro s h; simpa using h
    | cons n nodes ih =>
        intro s h
        exact ih _ (foldl_insertOnce_nodup (evalDependency importable n) s h)
  exact this [] List.nodup_nil

/-- C1: For every qualified import `from X import Y` in a unit's source,
`get_dependencies` records `X.Y` whenever `X.Y` is importable; whenever some
name in the list is not importable, the parent `X` is recorded; in every
case at least one of `X.Y`, `X` appears per imported name.  Plain
`import X` statements contribute `X` directly, and the returned collection
is a deduplicated set. -/
theorem evalDependency_spec (importable : String → Bool) (c : Comp) :
    (∀ m names, ImportNode.impFrom m names ∈ c.importNodes → ∀ a ∈ names,
      (importable (dotted m a) = true → dotted m a ∈ get_dependencies importable c) ∧
      (dotted m a ∈ get_dependencies importable c ∨ m ∈ get_dependencies importable c)) ∧
    (∀ m names, ImportNode.impFrom m names ∈ c.importNodes →
      (∃ a ∈ names, importable (dotted m a) = false) →
      m ∈ get_dependencies importable c) ∧
    (∀ names, ImportNode.imp names ∈ c.importNodes → ∀ a ∈ names,
      a ∈ get_dependencies importable c) ∧
    (get_dependencies importable c).Nodup := by
  refine ⟨?_, ?_, ?_, get_dependencies_nodup importable c⟩
  · intro m names hnode a ha
    constructor
    · intro himp
      exact mem_get_dependencies_of_node hnode
        (evalDependency_impFrom_resolvable importable m names ha himp)
    · by_cases himp : importable (dotted m a) = true
      · exact Or.inl (mem_get_dependencies_of_node hnode
          (evalDependency_impFrom_resolvable importable m names ha himp))
      · refine Or.inr (mem_get_dependencies_of_node hnode
          (evalDependency_impFrom_parent importable m names ha ?_))
        simpa using himp
  · rintro m names hnode ⟨a, ha, himp⟩
    exact mem_get_dependencies_of_node hnode
      (evalDependency_impFrom_parent importable m names ha himp)
  · intro names hnode a ha
    exact mem_get_dependencies_of_node hnode (evalDependency_imp importable names ha)

/-- An import environment in which exactly the module `pkg.ok` is
importable; used by concrete witnesses. -/
def envPkgOk : String → Bool := fun s => s == "pkg.ok"

/-- A unit whose source reads `from pkg import ok, missing` and
`import os`; used by concrete witnesses. -/
def compC1 : Comp :=
  ⟨[ImportNode.impFrom "pkg" ["ok", "missing"], ImportNode.imp ["os"]],
    [], [], [], [], [], none, none, none⟩

/-- Witness for `evalDependency_spec`: under `envPkgOk` (only `pkg.ok`
importable), extracting from `compC1` records `pkg.ok`, the parent `pkg`
(because `pkg.missing` fails to import), and `os`, without duplicates. -/
theorem evalDependency_spec_witness :
    "pkg.ok" ∈ get_dependencies envPkgOk compC1 ∧
      "pkg" ∈ get_dependencies envPkgOk compC1 ∧
      "os" ∈ get_dependencies envPkgOk compC1 ∧
      (get_dependencies envPkgOk compC1).Nodup := by
  have h := evalDependency_spec envPkgOk compC1
  refine ⟨?_, ?_, ?_, h.2.2.2⟩
  · have := (h.1 "pkg" ["ok", "missing"] (by decide) "ok" (by decide)).1 (by decide)
    simpa [dotted] using this
  · exact h.2.1 "pkg" ["ok", "missing"] (by decide) ⟨"missing", by decide, by decide⟩
  · exact h.2.2.1 ["os"] (by decide) "os" (by decide)

/-- Characters of a file name strictly before its last `.`, or `none` when
the name has no `.`; executable helper for `pathStem`. -/
def beforeLastDot : List Char → Option (List Char)
  | [] => none
  | c :: cs =>
      match beforeLastDot cs with
      | some rest => some (c :: rest)
      | none => if c = '.' then some [] else none

/-- Embeds `pathlib.PurePath.stem` — the final path component without its last
suffix — for ordinary module file names such as `mod.py` or `__init__.py`
(hidden files consisting only of a suffix, like `.py`, are outside the
model's use). -/
def pathStem (nm : String) : String :=
  match beforeLastDot nm.data with
  | some pre => String.mk pre
  | none => nm

/-- Split a dotted name into its segments (the character-level behaviour of
`name.split(".")`); executable helper for `get_path_from_name`. -/
def dotSegmentsAux : List Char → List Char → List (List Char)
  | [], acc => [acc.reverse]
  | c :: cs, acc =>
      if c = '.' then acc.reverse :: dotSegmentsAux cs []
      else dotSegmentsAux cs (c :: acc)

def dotSegments (name : String) : List String :=
  (dotSegmentsAux name.data []).map String.mk

/-- Filesystem paths are modelled as their `/`-separated component lists
(`Path("pkg/sub/mod.py")` is `["pkg", "sub", "mod.py"]`).
`ModuleComponent._get_name_from_path` (src/components.py:48-55):
`parent_name = str(path.parent).replace("/", ".")` — for a nested path this
is the `.`-joined prefix of the component list — and a `__init__.py` file
maps to `parent_name`, any other file to `f"{parent_name}.{path.stem}"`. -/
def get_name_from_path (p : List String) : String :=
  match p.getLast? with
  | some nm =>
      if nm = "__init__.py" then String.intercalate "." p.dropLast
      else String.intercalate "." p.dropLast ++ "." ++ pathStem nm
  | none => ""

/-- Embeds `ModuleComponent._get_path_from_name` (src/components.py:37-46) for an
importable `name`.  The source computes `obj = importlib.import_module(name)`
and branches on `inspect.ismodule(obj)`; `import_module` returns a module
object for plain modules AND for packages (a Python package is itself a
module object), and `inspect.ismodule` is true of every module object, so
the branch taken is always the `f"{module_path}.py"` one — the
`f"{module_path}/__init__.py"` branch is unreachable.  The result is
`Path(name.replace(".", "/") + ".py")`; as a component list, that is the
dot-segments of `name` with `.py` appended to the final segment. -/
def get_path_from_name (name : String) : List String :=
  (dotSegments name).dropLast ++ [((dotSegments name).getLast?.getD "") ++ ".py"]

/-- C2 (code_bug evaluation): name derivation behaves as claimed
(`pkg/sub/__init__.py ↦ pkg.sub`, `pkg/sub/mod.py ↦ pkg.sub.mod`, and the
module name `pkg.sub.mod` maps back to `pkg/sub/mod.py`), but the round
trip fails for the package half: `_get_path_from_name("pkg.sub")` returns
`pkg/sub.py`, not `pkg/sub/__init__.py`, because `inspect.ismodule` is true
for packages too, leaving the `__init__.py` branch dead. -/
theorem name_path_round_trip_eval :
    get_name_from_path ["pkg", "sub", "__init__.py"] = "pkg.sub" ∧
    get_name_from_path ["pkg", "sub", "mod.py"] = "pkg.sub.mod" ∧
    get_path_from_name "pkg.sub.mod" = ["pkg", "sub", "mod.py"] ∧
    get_path_from_name (get_name_from_path ["pkg", "sub", "__init__.py"]) =
      ["pkg", "sub.py"] ∧
    get_path_from_name (get_name_from_path ["pkg", "sub", "__init__.py"]) ≠
      ["pkg", "sub", "__init__.py"] := by
  refine ⟨rfl, rfl, rfl, rfl, ?_⟩
  decide

/-- Modelled from the spec: the instability formula computed by
`Component.calculate_instability` in the missing `src/icomponents.py`
(spec §4.4): `I = Ce / (Ce + Ca)` with `Ce = |external_dependencies|`,
`Ca = |internal_dependents|`, and `I = 0` when `Ce + Ca = 0`. -/
def instabilityFormula (c : Comp) : ℚ :=
  if (c.ext_dependencies.length : ℚ) + (c.internal_dependents.length : ℚ) = 0 then 0
  else (c.ext_dependencies.length : ℚ) /
    ((c.ext_dependencies.length : ℚ) + (c.internal_dependents.length : ℚ))

/-- Modelled from the spec: the abstraction formula computed by
`Component.calculate_abstraction` in the missing `src/icomponents.py`
(spec §4.4): `A = abstract-type-count / total-type-count`, `0` when no
types are declared. -/
def abstractionFormula (c : Comp) : ℚ :=
  if (c.abstract_classes.length : ℚ) + (c.no_abstract_classes.length : ℚ) = 0 then 0
  else (c.abstract_classes.length : ℚ) /
    ((c.abstract_classes.length : ℚ) + (c.no_abstract_classes.length : ℚ))

/-- Modelled from the spec: `Component.calculate_instability` from the
missing `src/icomponents.py` memoizes the instability ratio ("cached
ratio, computed once"; §4.4 "cached after first computation"). -/
def calculate_instability (c : Comp) : Comp :=
  match c.instability with
  | some _ => c
  | none => { c with instability := some (instabilityFormula c) }

/-- Modelled from the spec: `Component.calculate_abstraction` from the
missing `src/icomponents.py` memoizes the abstraction ratio. -/
def calculate_abstraction (c : Comp) : Comp :=
  match c.abstraction with
  | some _ => c
  | none => { c with abstraction := some (abstractionFormula c) }

/-- Embeds `ModuleComponent.get_instability` (src/components.py:134-136): call
`calculate_instability`, then return `self.instability`.  The pair returns
the value together with the (possibly newly cached) component state. -/
def get_instability (c : Comp) : ℚ × Comp :=
  ((calculate_instability c).instability.getD 0, calculate_instability c)

/-- Embeds `Component.depend_of` (src/components.py:62-67): whether some recorded
outgoing dependency has the given name. -/
def depend_of (c : Comp) (component_name : String) : Bool :=
  c.ext_dependencies.any (fun n => n == component_name)

/-- Modelled from the spec: `Component.add_class` from the missing
`src/icomponents.py` appends a declared type to the unit's abstract or
concrete list according to the `is_abstract` flag (spec §3
`declared_types`: ordered sequence tagged abstract or concrete). -/
def add_class (c : Comp) (m : PyClass) : Comp :=
  if m.isAbstract then { c with abstract_classes := c.abstract_classes ++ [m] }
  else { c with no_abstract_classes := c.no_abstract_classes ++ [m] }

/-- Embeds `ModuleComponent.load_classes` (src/components.py:69-79): a no-op once
either class list is populated; otherwise enumerate the loaded module's
members and `add_class` every class whose defining module is not an
already-recorded dependency (`not self.depend_of(obj.__module__)`). -/
def load_classes (c : Comp) : Comp :=
  if c.no_abstract_classes ≠ [] ∨ c.abstract_classes ≠ [] then c
  else c.members.foldl
    (fun acc m => if depend_of acc m.module then acc else add_class acc m) c

/-- Embeds `ModuleComponent.get_abstraction` (src/components.py:57-60):
`load_classes`, `calculate_abstraction`, return `self.abstraction`. -/
def get_abstraction (c : Comp) : ℚ × Comp :=
  ((calculate_abstraction (load_classes c)).abstraction.getD 0,
    calculate_abstraction (load_classes c))

/-- Modelled from the spec: `Component.get_distance` from the missing
`src/icomponents.py` (spec §4.4): `D = |A + I - 1|`, memoized like the
other two metrics, computed from the unit's (memoized) abstraction and
instability. -/
def get_distance (c : Comp) : ℚ × Comp :=
  match c.distance with
  | some d => (d, c)
  | none =>
      (|(get_abstraction (get_instability c).2).1 + (get_instability c).1 - 1|,
        { (get_abstraction (get_instability c).2).2 with
            distance := some |(get_abstraction (get_instability c).2).1 + (get_instability c).1 - 1| })

/-- Embeds `ASPoint` from src/dtos.py line 7: the named triple `(x, y, d)` — instability,
abstraction, distance — for one unit. -/
structure ASPoint where
  x : ℚ
  y : ℚ
  d : ℚ
  deriving DecidableEq, Repr

/-- The per-component body of `ModuleComponentLoader.get_as_plane`
(src/components.py:191-201): `instability = component.get_instability()`,
then `abstraction = component.get_abstraction()`, then
`distance = component.get_distance()`, each mutating the component in
place; the resulting `ASPoint(x=instability, y=abstraction, d=distance)`
is returned together with the final component state. -/
def componentASPoint (c : Comp) : ASPoint × Comp :=
  (⟨(get_instability c).1,
     (get_abstraction (get_instability c).2).1,
     (get_distance (get_abstraction (get_instability c).2).2).1⟩,
   (get_distance (get_abstraction (get_instability c).2).2).2)

/-- The unit mapping `ModuleComponentLoader.components`: an
insertion-ordered dictionary from unit name to component, modelled as an
association list (CPython dicts preserve insertion order; keys are
unique). -/
abbrev Graph := List (String × Comp)

/-- Embeds `ModuleComponentLoader.get_as_plane` (src/components.py:191-201). -/
def get_as_plane (g : Graph) : List (String × ASPoint) :=
  g.map (fun p => (p.1, (componentASPoint p.2).1))

/-- Python's built-in `round(x, decimals)` on an exactly-represented value:
round half to even at `decimals` digits. -/
def pyRound (x : ℚ) (decimals : ℕ) : ℚ :=
  if x * (10 : ℚ) ^ decimals - (⌊x * (10 : ℚ) ^ decimals⌋ : ℚ) < 1 / 2 then
    (⌊x * (10 : ℚ) ^ decimals⌋ : ℚ) / (10 : ℚ) ^ decimals
  else if 1 / 2 < x * (10 : ℚ) ^ decimals - (⌊x * (10 : ℚ) ^ decimals⌋ : ℚ) then
    ((⌊x * (10 : ℚ) ^ decimals⌋ : ℚ) + 1) / (10 : ℚ) ^ decimals
  else if ⌊x * (10 : ℚ) ^ decimals⌋ % 2 = 0 then
    (⌊x * (10 : ℚ) ^ decimals⌋ : ℚ) / (10 : ℚ) ^ decimals
  else ((⌊x * (10 : ℚ) ^ decimals⌋ : ℚ) + 1) / (10 : ℚ) ^ decimals

/-- Embeds `ModuleComponentLoader.calculate_main_distance` (src/components.py:
203-214): collect every component's `get_distance()`, set
`main_distance = sum(distances) / len(distances)` when the list is
nonempty (it is initialized to 0), and return `round(main_distance,
decimals)`. -/
def calculate_main_distance (g : Graph) (decimals : ℕ) : ℚ :=
  if (g.map (fun p => (get_distance p.2).1)) = [] then pyRound 0 decimals
  else pyRound ((g.map (fun p => (get_distance p.2).1)).sum /
    ((g.map (fun p => (get_distance p.2).1)).length : ℚ)) decimals

theorem calculate_instability_none {c : Comp} (h : c.instability = none) :
    calculate_instability c = { c with instability := some (instabilityFormula c) } := by
  unfold calculate_instability
  rw [h]

theorem calculate_instability_some {c : Comp} {q : ℚ} (h : c.instability = some q) :
    calculate_instability c = c := by
  unfold calculate_instability
  rw [h]

theorem get_instability_none {c : Comp} (h : c.instability = none) :
    get_instability c =
      (instabilityFormula c, { c with instability := some (instabilityFormula c) }) := by
  unfold get_instability
  rw [calculate_instability_none h]
  rfl

theorem get_instability_some {c : Comp} {q : ℚ} (h : c.instability = some q) :
    get_instability c = (q, c) := by
  unfold get_instability
  rw [calculate_instability_some h, h]
  rfl

theorem calculate_abstraction_none {c : Comp} (h : c.abstraction = none) :
    calculate_abstraction c = { c with abstraction := some (abstractionFormula c) } := by
  unfold calculate_abstraction
  rw [h]

theorem calculate_abstraction_some {c : Comp} {q : ℚ} (h : c.abstraction = some q) :
    calculate_abstraction c = c := by
  unfold calculate_abstraction
  rw [h]

/-- Lemma: `add_class` touches only the two class lists. -/
theorem add_class_preserves (c : Comp) (m : PyClass) :
    (add_class c m).importNodes = c.importNodes ∧
    (add_class c m).members = c.members ∧
    (add_class c m).ext_dependencies = c.ext_dependencies ∧
    (add_class c m).internal_dependents = c.internal_dependents ∧
    (add_class c m).instability = c.instability ∧
    (add_class c m).abstraction = c.abstraction ∧
    (add_class c m).distance = c.distance := by
  unfold add_class
  by_cases h : m.isAbstract <;> simp [h]

theorem classesFold_preserves (ms : List PyClass) :
    ∀ acc : Comp,
      ((ms.foldl (fun acc m => if depend_of acc m.module then acc else add_class acc m) acc).importNodes = acc.importNodes ∧
       (ms.foldl (fun acc m => if depend_of acc m.module then acc else add_class acc m) acc).members = acc.members ∧
       (ms.foldl (fun acc m => if depend_of acc m.module then acc else add_class acc m) acc).ext_dependencies = acc.ext_dependencies ∧
       (ms.foldl (fun acc m => if depend_of acc m.module then acc else add_class acc m) acc).internal_dependents = acc.internal_dependents ∧
       (ms.foldl (fun acc m => if depend_of acc m.module then acc else add_class acc m) acc).instability = acc.instability ∧
       (ms.foldl (fun acc m => if depend_of acc m.module then acc else add_class acc m) acc).abstraction = acc.abstraction ∧
       (ms.foldl (fun acc m => if depend_of acc m.module then acc else add_class acc m) acc).distance = acc.distance) := by
  induction ms with
  | nil => intro acc; simp
  | cons m ms ih =>
      intro acc
      by_cases h : depend_of acc m.module
      · simpa [h] using ih acc
      · have hstep := add_class_preserves acc m
        have htail := ih (add_class acc m)
        simp only [List.foldl_cons, h, if_false]
        exact ⟨htail.1.trans hstep.1,
          htail.2.1.trans hstep.2.1,
          htail.2.2.1.trans hstep.2.2.1,
          htail.2.2.2.1.trans hstep.2.2.2.1,
          htail.2.2.2.2.1.trans hstep.2.2.2.2.1,
          htail.2.2.2.2.2.1.trans hstep.2.2.2.2.2.1,
          htail.2.2.2.2.2.2.trans hstep.2.2.2.2.2.2⟩

/-- Lemma: `load_classes` touches only the two class lists. -/
theorem load_classes_preserves (c : Comp) :
    (load_classes c).importNodes = c.importNodes ∧
    (load_classes c).members = c.members ∧
    (load_classes c).ext_dependencies = c.ext_dependencies ∧
    (load_classes c).internal_dependents = c.internal_dependents ∧
    (load_classes c).instability = c.instability ∧
    (load_classes c).abstraction = c.abstraction ∧
    (load_classes c).distance = c.distance := by
  unfold load_classes
  by_cases h : c.no_abstract_classes ≠ [] ∨ c.abstract_classes ≠ []
  · simp [h]
  · simp only [h, if_false]
    exact classesFold_preserves c.members c

/-- A count ratio `a / (a + b)` with the zero-denominator case defined as
0 lies in `[0, 1]`. -/
theorem ratioFormula_bounds (a b : ℕ) :
    0 ≤ (if (a : ℚ) + (b : ℚ) = 0 then 0 else (a : ℚ) / ((a : ℚ) + (b : ℚ))) ∧
      (if (a : ℚ) + (b : ℚ) = 0 then 0 else (a : ℚ) / ((a : ℚ) + (b : ℚ))) ≤ 1 := by
  by_cases h : (a : ℚ) + (b : ℚ) = 0
  · rw [if_pos h]
    norm_num
  · have hpos : 0 < (a : ℚ) + (b : ℚ) := by
      have ha : (0 : ℚ) ≤ a := Nat.cast_nonneg a
      have hb : (0 : ℚ) ≤ b := Nat.cast_nonneg b
      rcases lt_or_eq_of_le (by linarith : (0 : ℚ) ≤ (a : ℚ) + b) with hlt | heq
      · exact hlt
      · exact absurd heq.symm h
    rw [if_neg h]
    constructor
    · positivity
    · rw [div_le_one hpos]
      have hb : (0 : ℚ) ≤ b := Nat.cast_nonneg b
      linarith

theorem instabilityFormula_bounds (c : Comp) :
    0 ≤ instabilityFormula c ∧ instabilityFormula c ≤ 1 :=
  ratioFormula_bounds c.ext_dependencies.length c.internal_dependents.length

theorem abstractionFormula_bounds (c : Comp) :
    0 ≤ abstractionFormula c ∧ abstractionFormula c ≤ 1 :=
  ratioFormula_bounds c.abstract_classes.length c.no_abstract_classes.length

/-- C5: for a unit whose instability has not been computed yet (as every
unit is when discovered), `get_instability` returns `Ce / (Ce + Ca)` with
`Ce = |external_dependencies|` and `Ca = |internal_dependents|`, and
returns 0 — not a division failure — when `Ce + Ca = 0`.  The last
conjunct (`I * (Ce + Ca) = Ce`) holds unconditionally of the case split,
so the formula is pinned down without restating it. -/
theorem get_instability_spec (c : Comp) (h : c.instability = none) :
    ((c.ext_dependencies.length : ℚ) + (c.internal_dependents.length : ℚ) = 0 →
      (get_instability c).1 = 0) ∧
    ((c.ext_dependencies.length : ℚ) + (c.internal_dependents.length : ℚ) ≠ 0 →
      (get_instability c).1 = (c.ext_dependencies.length : ℚ) /
        ((c.ext_dependencies.length : ℚ) + (c.internal_dependents.length : ℚ))) ∧
    (get_instability c).1 *
        ((c.ext_dependencies.length : ℚ) + (c.internal_dependents.length : ℚ)) =
      (c.ext_dependencies.length : ℚ) := by
  rw [get_instability_none h]
  unfold instabilityFormula
  refine ⟨fun hz => by rw [if_pos hz], fun hnz => by rw [if_neg hnz], ?_⟩
  by_cases hz : (c.ext_dependencies.length : ℚ) + (c.internal_dependents.length : ℚ) = 0
  · rw [if_pos hz, zero_mul]
    have : (c.ext_dependencies.length : ℚ) = 0 := by
      have ha : (0 : ℚ) ≤ (c.ext_dependencies.length : ℚ) := Nat.cast_nonneg _
      have hb : (0 : ℚ) ≤ (c.internal_dependents.length : ℚ) := Nat.cast_nonneg _
      linarith
    exact this.symm
  · rw [if_neg hz]
    exact div_mul_cancel₀ _ hz

/-- A freshly discovered unit with one outgoing and one incoming edge;
used by concrete witnesses. -/
def compC5 : Comp := ⟨[], [], ["b"], ["d"], [], [], none, none, none⟩

/-- Witness for `get_instability_spec` at `compC5` (Ce = Ca = 1):
`I * (Ce + Ca) = Ce` and the nonzero-denominator branch gives
`I = 1 / 2`. -/
theorem get_instability_spec_witness :
    (get_instability compC5).1 *
        ((compC5.ext_dependencies.length : ℚ) + (compC5.internal_dependents.length : ℚ)) =
      (compC5.ext_dependencies.length : ℚ) ∧
    (get_instability compC5).1 = (compC5.ext_dependencies.length : ℚ) /
        ((compC5.ext_dependencies.length : ℚ) + (compC5.internal_dependents.length : ℚ)) := by
  refine ⟨(get_instability_spec compC5 rfl).2.2, ?_⟩
  exact (get_instability_spec compC5 rfl).2.1 (by norm_num [compC5])

/-- C6: for a freshly discovered unit (no metric computed yet), the point
`get_as_plane` derives satisfies `d = |y + x - 1|` exactly, and all three
coordinates (instability x, abstraction y, distance d) lie in `[0, 1]`. -/
theorem as_plane_point_spec (c : Comp) (h1 : c.instability = none)
    (h2 : c.abstraction = none) (h3 : c.distance = none) :
    (componentASPoint c).1.d =
      |(componentASPoint c).1.y + (componentASPoint c).1.x - 1| ∧
    0 ≤ (componentASPoint c).1.x ∧ (componentASPoint c).1.x ≤ 1 ∧
    0 ≤ (componentASPoint c).1.y ∧ (componentASPoint c).1.y ≤ 1 ∧
    0 ≤ (componentASPoint c).1.d ∧ (componentASPoint c).1.d ≤ 1 := by
  have hi := get_instability_none h1
  set iv := instabilityFormula c with hiv
  set c1 : Comp := { c with instability := some iv } with hc1
  set L : Comp := load_classes c1 with hL
  have hLpres := load_classes_preserves c1
  have hLa : L.abstraction = none := by rw [← hL] at hLpres; rw [hLpres.2.2.2.2.2.1]; exact h2
  have hLi : L.instability = some iv := by rw [← hL] at hLpres; rw [hLpres.2.2.2.2.1]
  have hLd : L.distance = none := by rw [← hL] at hLpres; rw [hLpres.2.2.2.2.2.2]; exact h3
  set av := abstractionFormula L with hav
  set c2 : Comp := { L with abstraction := some av } with hc2
  have hga : get_abstraction c1 = (av, c2) := by
    unfold get_abstraction
    rw [← hL, calculate_abstraction_none hLa]
    rfl
  have hc2i : c2.instability = some iv := hLi
  have hc2a : c2.abstraction = some av := rfl
  have hc2d : c2.distance = none := hLd
  set L2 : Comp := load_classes c2 with hL2
  have hL2pres := load_classes_preserves c2
  have hL2a : L2.abstraction = some av := by rw [← hL2] at hL2pres; rw [hL2pres.2.2.2.2.2.1]
  have hga2 : (get_abstraction c2).1 = av := by
    unfold get_abstraction
    rw [← hL2, calculate_abstraction_some hL2a, hL2a]
    rfl
  have hgi2 : get_instability c2 = (iv, c2) := get_instability_some hc2i
  have hgd : (get_distance c2).1 = |av + iv - 1| := by
    unfold get_distance
    rw [hc2d]
    simp only [hgi2, hga2]
  have hpoint : (componentASPoint c).1 = ⟨iv, av, |av + iv - 1|⟩ := by
    unfold componentASPoint
    rw [hi]
    simp only [hga, hgi2, hga2, hgd]
  rw [hpoint]
  have hib := instabilityFormula_bounds c
  have hab := abstractionFormula_bounds L
  rw [← hiv] at hib
  rw [← hav] at hab
  refine ⟨rfl, hib.1, hib.2, hab.1, hab.2, abs_nonneg _, ?_⟩
  rw [abs_le]
  constructor <;> [linarith [hib.2, hab.2]; linarith [hib.1, hab.1]]

/-- Witness for `as_plane_point_spec` at `compC5` (fresh unit, Ce = Ca = 1,
no declared types): the point is `(1/2, 0, 1/2)` and all conjuncts hold. -/
theorem as_plane_point_spec_witness :
    (componentASPoint compC5).1.d =
      |(componentASPoint compC5).1.y + (componentASPoint compC5).1.x - 1| ∧
    0 ≤ (componentASPoint compC5).1.x ∧ (componentASPoint compC5).1.x ≤ 1 ∧
    0 ≤ (componentASPoint compC5).1.y ∧ (componentASPoint compC5).1.y ≤ 1 ∧
    0 ≤ (componentASPoint compC5).1.d ∧ (componentASPoint compC5).1.d ≤ 1 :=
  as_plane_point_spec compC5 rfl rfl rfl

theorem pyRound_zero (decimals : ℕ) : pyRound 0 decimals = 0 := by
  unfold pyRound
  norm_num

/-- C7: `calculate_main_distance` returns the arithmetic mean of every
discovered unit's distance, rounded (Python `round`, banker's rounding) to
`decimals` digits, and returns 0 on an empty graph rather than failing. -/
theorem calculate_main_distance_spec (g : Graph) (decimals : ℕ) :
    (g = [] → calculate_main_distance g decimals = 0) ∧
    (g ≠ [] → calculate_main_distance g decimals =
      pyRound ((g.map (fun p => (get_distance p.2).1)).sum / (g.length : ℚ)) decimals) := by
  constructor
  · rintro rfl
    unfold calculate_main_distance
    simpa using pyRound_zero decimals
  · intro hne
    unfold calculate_main_distance
    rw [if_neg (by simpa using hne)]
    rw [List.length_map]

/-- Witness for `calculate_main_distance_spec`: the empty graph yields 0,
and a one-unit graph yields the rounded mean of its single distance. -/
theorem calculate_main_distance_spec_witness :
    calculate_main_distance ([] : Graph) 2 = 0 ∧
    calculate_main_distance [("a", compC5)] 2 =
      pyRound (((([("a", compC5)] : Graph)).map (fun p => (get_distance p.2).1)).sum /
        ((([("a", compC5)] : Graph)).length : ℚ)) 2 :=
  ⟨(calculate_main_distance_spec [] 2).1 rfl,
    (calculate_main_distance_spec [("a", compC5)] 2).2 (by simp)⟩

/-- The exception `importlib.import_module` raises for a name that cannot
be imported (`ModuleNotFoundError`, a subclass of `ImportError`). -/
inductive PyExn where
  | moduleNotFound (name : String)
  deriving DecidableEq, Repr

/-- Modelled from the spec: `Component.add_dependency` from the missing
`src/icomponents.py` records an edge for the given component (dependencies
are stored by unit name here): with `is_internal=True` the name joins
`internal_dependents` (incoming edge), otherwise it joins
`external_dependencies` (outgoing edge).  Both are sets per the spec's
data model, so re-adding an existing name is a no-op. -/
def add_dependency (c : Comp) (depName : String) (is_internal : Bool) : Comp :=
  if is_internal then
    { c with internal_dependents := insertOnce depName c.internal_dependents }
  else
    { c with ext_dependencies := insertOnce depName c.ext_dependencies }

/-- The loop body of `ModuleComponent.load_dependencies`
(src/components.py:127-132) over the extracted dependency names: skip names
on the ignore list; otherwise `ModuleComponent(name=module)` is
constructed, whose `__init__` calls `_get_path_from_name`, which calls
`importlib.import_module(module)` with no exception guard — an
unimportable name raises and aborts the loop; an importable one becomes a
placeholder unit recorded via `add_dependency`. -/
def loadDepsList (importable : String → Bool) (ignore : List String) :
    List String → Comp → Except PyExn Comp
  | [], c => Except.ok c
  | m :: ms, c =>
      if m ∈ ignore then loadDepsList importable ignore ms c
      else if importable m then
        loadDepsList importable ignore ms (add_dependency c m false)
      else Except.error (PyExn.moduleNotFound m)

/-- Embeds `ModuleComponent.load_dependencies` (src/components.py:121-132):
a no-op when `external_dependencies` is already truthy (nonempty);
otherwise extract the dependency set and process it with `loadDepsList`. -/
def load_dependenciesE (importable : String → Bool) (ignore : List String)
    (c : Comp) : Except PyExn Comp :=
  if c.ext_dependencies ≠ [] then Except.ok c
  else loadDepsList importable ignore (get_dependencies importable c) c

theorem loadDepsList_error {importable : String → Bool} {ignore : List String}
    {m : String} (hni : m ∉ ignore) (himp : importable m = false) :
    ∀ ms : List String, m ∈ ms → ∀ c : Comp,
      ∃ e, loadDepsList importable ignore ms c = Except.error e := by
  intro ms
  induction ms with
  | nil => intro h; cases h
  | cons a ms ih =>
      intro h c
      by_cases hig : a ∈ ignore
      · have hma : m ≠ a := fun heq => hni (heq ▸ hig)
        have hmem : m ∈ ms := by
          rcases List.mem_cons.mp h with rfl | hmem
          · exact absurd hig hni
          · exact hmem
        simpa [loadDepsList, hig] using ih hmem c
      · by_cases ha : importable a
        · have hma : m ≠ a := fun heq => by rw [heq] at himp; rw [himp] at ha; cases ha
          have hmem : m ∈ ms := by
            rcases List.mem_cons.mp h with rfl | hmem
            · exact absurd ha (by simp [himp])
            · exact hmem
          simpa [loadDepsList, hig, ha] using ih hmem (add_dependency c a false)
        · refine ⟨PyExn.moduleNotFound a, ?_⟩
          simp [loadDepsList, hig, ha]

/-- C9: for a unit whose `external_dependencies` is still empty (so the
`load_dependencies` guard does not short-circuit), if any extracted,
non-ignored dependency name is not importable in the running environment,
`load_dependencies` raises (the unguarded `importlib.import_module`
inside `ModuleComponent.__init__` / `_get_path_from_name` propagates
`ModuleNotFoundError`) instead of degrading. -/
theorem load_dependencies_raises (importable : String → Bool)
    (ignore : List String) (c : Comp) (hfresh : c.ext_dependencies = [])
    (m : String) (hm : m ∈ get_dependencies importable c)
    (hni : m ∉ ignore) (himp : importable m = false) :
    ∃ e, load_dependenciesE importable ignore c = Except.error e := by
  unfold load_dependenciesE
  rw [if_neg (by simp [hfresh])]
  exact loadDepsList_error hni himp (get_dependencies importable c) hm c

/-- A unit whose source reads `import ghost`; used by concrete
witnesses. -/
def compC9 : Comp := ⟨[ImportNode.imp ["ghost"]], [], [], [], [], [], none, none, none⟩

/-- An environment in which no module is importable; used by concrete
witnesses. -/
def envNone : String → Bool := fun _ => false

/-- Witness for `load_dependencies_raises`: resolving `compC9` (whose
source imports the unimportable `ghost`) with an empty ignore list
raises. -/
theorem load_dependencies_raises_witness :
    ∃ e, load_dependenciesE envNone [] compC9 = Except.error e :=
  load_dependencies_raises envNone [] compC9 rfl "ghost" (by decide) (by decide) rfl

def keysOf (g : Graph) : List String := g.map Prod.fst

/-- Lookup in the insertion-ordered unit mapping (`self.components` of the
loader). -/
def lookupComp : Graph → String → Option Comp
  | [], _ => none
  | p :: rest, n => if p.1 = n then some p.2 else lookupComp rest n

/-- In-place mutation of the component stored under a key (Python mutates
the object held by the dict; the keys never change). -/
def updateComp (g : Graph) (n : String) (f : Comp → Comp) : Graph :=
  g.map (fun p => if p.1 = n then (p.1, f p.2) else p)

/-- The inner loop of `ModuleComponentLoader._load_dependencies`
(src/components.py:175-178): for each outgoing dependency of the unit
being processed, if its name is a key of `self.components`, add the
processing unit to that component's incoming edges
(`add_dependency(component, is_internal=True)`). -/
def addIncoming (n : String) : List String → Graph → Graph
  | [], g => g
  | d :: ds, g =>
      addIncoming n ds
        (if d ∈ keysOf g then updateComp g d (fun c => add_dependency c n true) else g)

/-- One iteration of the loop in `ModuleComponentLoader._load_dependencies`
(src/components.py:172-178) for the key `n`: run the component's
`load_dependencies` (which may raise, aborting the pass), store the
mutated component back (a no-op re-assignment in Python), and run the
incoming-edge loop. -/
def processComponentE (importable : String → Bool) (ignore : List String)
    (g : Graph) (n : String) : Except PyExn Graph :=
  match lookupComp g n with
  | none => Except.ok g
  | some c =>
      match load_dependenciesE importable ignore c with
      | Except.error e => Except.error e
      | Except.ok c' =>
          Except.ok (addIncoming n c'.ext_dependencies (updateComp g n (fun _ => c')))

/-- The loop of `ModuleComponentLoader._load_dependencies` over the keys of
`self.components` (insertion order), threading the mutated mapping. -/
def passAux (importable : String → Bool) (ignore : List String) :
    List String → Graph → Except PyExn Graph
  | [], g => Except.ok g
  | n :: ks, g =>
      match processComponentE importable ignore g n with
      | Except.error e => Except.error e
      | Except.ok g' => passAux importable ignore ks g'

/-- The built-in ignore set installed by
`ModuleComponentLoader._ignore_native_library` (src/components.py:145-146)
via the spec-modelled `ComponentLoader.ignore_deps`. -/
def nativeIgnoreList : List String := ["abc", "typing"]

/-- Embeds `ModuleComponentLoader._load_dependencies` (src/components.py:165-178):
normalize a falsy (`None`/empty) caller list to a fresh empty list, extend
it with the loader's built-in ignore set, and process every component. -/
def load_dependencies_pass (importable : String → Bool)
    (callerIgnore : Option (List String)) (g : Graph) : Except PyExn Graph :=
  passAux importable ((callerIgnore.getD []) ++ nativeIgnoreList) (keysOf g) g

theorem lookupComp_cons (p : String × Comp) (rest : Graph) (n : String) :
    lookupComp (p :: rest) n = if p.1 = n then some p.2 else lookupComp rest n := rfl

theorem updateComp_cons (p : String × Comp) (rest : Graph) (n : String) (f : Comp → Comp) :
    updateComp (p :: rest) n f =
      (if p.1 = n then (p.1, f p.2) else p) :: updateComp rest n f := rfl

theorem keysOf_cons (p : String × Comp) (rest : Graph) :
    keysOf (p :: rest) = p.1 :: keysOf rest := rfl

theorem keysOf_updateComp (g : Graph) (n : String) (f : Comp → Comp) :
    keysOf (updateComp g n f) = keysOf g := by
  induction g with
  | nil => rfl
  | cons p rest ih =>
      rw [updateComp_cons, keysOf_cons, keysOf_cons, ih]
      by_cases h : p.1 = n
      · rw [if_pos h]
      · rw [if_neg h]

theorem lookupComp_updateComp_ne {A n : String} (h : A ≠ n) (g : Graph)
    (f : Comp → Comp) : lookupComp (updateComp g n f) A = lookupComp g A := by
  induction g with
  | nil => rfl
  | cons p rest ih =>
      rw [updateComp_cons]
      by_cases hp : p.1 = n
      · have hne : p.1 ≠ A := fun heq => h (heq ▸ hp)
        rw [if_pos hp, lookupComp_cons, lookupComp_cons, if_neg hne, if_neg hne, ih]
      · rw [if_neg hp, lookupComp_cons, lookupComp_cons, ih]

theorem lookupComp_updateComp_self (g : Graph) (n : String) (f : Comp → Comp) :
    lookupComp (updateComp g n f) n = (lookupComp g n).map f := by
  induction g with
  | nil => rfl
  | cons p rest ih =>
      rw [updateComp_cons]
      by_cases hp : p.1 = n
      · rw [if_pos hp, lookupComp_cons, lookupComp_cons, if_pos hp, if_pos hp]
        rfl
      · rw [if_neg hp, lookupComp_cons, lookupComp_cons, if_neg hp, if_neg hp, ih]

theorem mem_keys_of_lookup {g : Graph} {n : String} {c : Comp}
    (h : lookupComp g n = some c) : n ∈ keysOf g := by
  induction g with
  | nil => cases h
  | cons p rest ih =>
      rw [lookupComp] at h
      by_cases hp : p.1 = n
      · simp [keysOf, hp]
      · rw [if_neg hp] at h
        simp only [keysOf, List.map_cons, List.mem_cons]
        exact Or.inr (ih h)

theorem lookup_isSome_of_mem {g : Graph} {n : String} (h : n ∈ keysOf g) :
    ∃ c, lookupComp g n = some c := by
  induction g with
  | nil => cases h
  | cons p rest ih =>
      by_cases hp : p.1 = n
      · exact ⟨p.2, by rw [lookupComp, if_pos hp]⟩
      · have : n ∈ keysOf rest := by
          rcases List.mem_cons.mp h with heq | hmem
          · exact absurd heq.symm hp
          · exact hmem
        obtain ⟨c, hc⟩ := ih this
        exact ⟨c, by rw [lookupComp, if_neg hp]; exact hc⟩

theorem map_eq_self_of {α : Type} {l : List α} {f : α → α}
    (h : ∀ a ∈ l, f a = a) : l.map f = l := by
  induction l with
  | nil => rfl
  | cons a l ih =>
      rw [List.map_cons, h a (List.mem_cons_self a l), ih (fun b hb => h b (List.mem_cons_of_mem a hb))]

theorem updateComp_not_mem {g : Graph} {n : String} (h : n ∉ keysOf g)
    (f : Comp → Comp) : updateComp g n f = g := by
  unfold updateComp
  refine map_eq_self_of ?_
  intro q hq
  have : q.1 ≠ n := fun heq => h (heq ▸ List.mem_map_of_mem Prod.fst hq)
  rw [if_neg this]

theorem updateComp_eq_self {g : Graph} {n : String} {f : Comp → Comp}
    (hnd : (keysOf g).Nodup)
    (h : ∀ c, lookupComp g n = some c → f c = c) : updateComp g n f = g := by
  induction g with
  | nil => rfl
  | cons p rest ih =>
      rw [keysOf_cons] at hnd
      have hnd' : (keysOf rest).Nodup := (List.nodup_cons.mp hnd).2
      have hp1 : p.1 ∉ keysOf rest := (List.nodup_cons.mp hnd).1
      rw [updateComp_cons]
      by_cases hp : p.1 = n
      · have hfix : f p.2 = p.2 := h p.2 (by rw [lookupComp_cons, if_pos hp])
        have htail : updateComp rest n f = rest :=
          updateComp_not_mem (fun hmem => hp1 (hp ▸ hmem)) f
        rw [if_pos hp, hfix, htail]
      · have htail : updateComp rest n f = rest := by
          refine ih hnd' ?_
          intro c hc
          refine h c ?_
          rw [lookupComp_cons, if_neg hp]
          exact hc
        rw [if_neg hp, htail]

/-- How a stored component can change while the dependency pass processes
OTHER units: every field is untouched except `internal_dependents`, which
may only grow, and any new entry is the name `n` of the processing unit. -/
def DepEvolved (n : String) (c c' : Comp) : Prop :=
  c'.importNodes = c.importNodes ∧
  c'.members = c.members ∧
  c'.ext_dependencies = c.ext_dependencies ∧
  c'.abstract_classes = c.abstract_classes ∧
  c'.no_abstract_classes = c.no_abstract_classes ∧
  c'.instability = c.instability ∧
  c'.abstraction = c.abstraction ∧
  c'.distance = c.distance ∧
  (∀ y ∈ c.internal_dependents, y ∈ c'.internal_dependents) ∧
  (∀ y ∈ c'.internal_dependents, y ∈ c.internal_dependents ∨ y = n)

theorem depEvolved_refl (n : String) (c : Comp) : DepEvolved n c c :=
  ⟨rfl, rfl, rfl, rfl, rfl, rfl, rfl, rfl, fun _ h => h, fun _ h => Or.inl h⟩

theorem depEvolved_trans {n : String} {c c' c'' : Comp}
    (h1 : DepEvolved n c c') (h2 : DepEvolved n c' c'') : DepEvolved n c c'' := by
  refine ⟨h2.1.trans h1.1, h2.2.1.trans h1.2.1, h2.2.2.1.trans h1.2.2.1,
    h2.2.2.2.1.trans h1.2.2.2.1, h2.2.2.2.2.1.trans h1.2.2.2.2.1,
    h2.2.2.2.2.2.1.trans h1.2.2.2.2.2.1, h2.2.2.2.2.2.2.1.trans h1.2.2.2.2.2.2.1,
    h2.2.2.2.2.2.2.2.1.trans h1.2.2.2.2.2.2.2.1, ?_, ?_⟩
  · intro y hy
    exact h2.2.2.2.2.2.2.2.2.1 y (h1.2.2.2.2.2.2.2.2.1 y hy)
  · intro y hy
    rcases h2.2.2.2.2.2.2.2.2.2 y hy with hmem | heq
    · exact h1.2.2.2.2.2.2.2.2.2 y hmem
    · exact Or.inr heq

theorem depEvolved_add (n : String) (c : Comp) :
    DepEvolved n c (add_dependency c n true) := by
  unfold add_dependency
  refine ⟨rfl, rfl, rfl, rfl, rfl, rfl, rfl, rfl, ?_, ?_⟩
  · intro y hy
    exact mem_insertOnce_of_mem n hy
  · intro y hy
    rcases mem_of_mem_insertOnce hy with heq | hmem
    · exact Or.inr heq
    · exact Or.inl hmem

theorem add_dependency_true_self {n : String} {c : Comp}
    (h : n ∈ c.internal_dependents) : add_dependency c n true = c := by
  unfold add_dependency
  rw [if_pos rfl, insertOnce_of_mem h]

theorem addIncoming_keys (n : String) (ds : List String) :
    ∀ g : Graph, keysOf (addIncoming n ds g) = keysOf g := by
  induction ds with
  | nil => intro g; rfl
  | cons d ds ih =>
      intro g
      unfold addIncoming
      by_cases hd : d ∈ keysOf g
      · rw [if_pos hd, ih, keysOf_updateComp]
      · rw [if_neg hd, ih]

theorem addIncoming_lookup (n : String) (ds : List String) :
    ∀ (g : Graph) (A : String) (cA : Comp), lookupComp g A = some cA →
      ∃ cA', lookupComp (addIncoming n ds g) A = some cA' ∧ DepEvolved n cA cA' := by
  induction ds with
  | nil => intro g A cA h; exact ⟨cA, h, depEvolved_refl n cA⟩
  | cons d ds ih =>
      intro g A cA h
      unfold addIncoming
      by_cases hd : d ∈ keysOf g
      · rw [if_pos hd]
        by_cases hA : A = d
        · subst hA
          have hlk : lookupComp (updateComp g A (fun c => add_dependency c n true)) A =
              some (add_dependency cA n true) := by
            rw [lookupComp_updateComp_self, h]
            rfl
          obtain ⟨cA', hA', hev⟩ := ih _ A (add_dependency cA n true) hlk
          exact ⟨cA', hA', depEvolved_trans (depEvolved_add n cA) hev⟩
        · have hlk : lookupComp (updateComp g d (fun c => add_dependency c n true)) A =
              some cA := by
            rw [lookupComp_updateComp_ne hA, h]
          exact ih _ A cA hlk
      · rw [if_neg hd]
        exact ih g A cA h

theorem addIncoming_target (n : String) (ds : List String) :
    ∀ (g : Graph) (d : String), d ∈ ds → d ∈ keysOf g →
      ∀ cd', lookupComp (addIncoming n ds g) d = some cd' →
        n ∈ cd'.internal_dependents := by
  induction ds with
  | nil => intro g d h; cases h
  | cons a ds ih =>
      intro g d hmem hkeys cd' hlk
      unfold addIncoming at hlk
      by_cases ha : a ∈ keysOf g
      · rw [if_pos ha] at hlk
        by_cases hda : d = a
        · subst hda
          obtain ⟨cd, hcd⟩ := lookup_isSome_of_mem hkeys
          have hlk2 : lookupComp (updateComp g d (fun c => add_dependency c n true)) d =
              some (add_dependency cd n true) := by
            rw [lookupComp_updateComp_self, hcd]
            rfl
          obtain ⟨cd'', hcd'', hev⟩ := addIncoming_lookup n ds _ d
            (add_dependency cd n true) hlk2
          rw [hlk] at hcd''
          cases hcd''
          exact hev.2.2.2.2.2.2.2.2.1 n (by
            unfold add_dependency
            rw [if_pos rfl]
            exact mem_insertOnce_self n cd.internal_dependents)
        · have hd2 : d ∈ ds := by
            rcases List.mem_cons.mp hmem with heq | h2
            · exact absurd heq hda
            · exact h2
          refine ih _ d hd2 ?_ cd' hlk
          rw [keysOf_updateComp]
          exact hkeys
      · rw [if_neg ha] at hlk
        have hd2 : d ∈ ds := by
          rcases List.mem_cons.mp hmem with heq | h2
          · exact absurd (heq ▸ hkeys) ha
          · exact h2
        exact ih g d hd2 hkeys cd' hlk

theorem addIncoming_lookup_not_mem (n : String) (ds : List String) {m : String}
    (hm : m ∉ ds) :
    ∀ g : Graph, lookupComp (addIncoming n ds g) m = lookupComp g m := by
  induction ds with
  | nil => intro g; rfl
  | cons d ds ih =>
      intro g
      have hmd : m ≠ d := fun heq => hm (heq ▸ List.mem_cons_self d ds)
      have hm2 : m ∉ ds := fun h2 => hm (List.mem_cons_of_mem d h2)
      unfold addIncoming
      by_cases hd : d ∈ keysOf g
      · rw [if_pos hd, ih hm2, lookupComp_updateComp_ne hmd]
      · rw [if_neg hd, ih hm2]

theorem addIncoming_fix (n : String) (ds : List String) :
    ∀ g : Graph, (keysOf g).Nodup →
      (∀ d ∈ ds, ∀ cd, lookupComp g d = some cd → n ∈ cd.internal_dependents) →
      addIncoming n ds g = g := by
  induction ds with
  | nil => intro g _ _; rfl
  | cons d ds ih =>
      intro g hnd h
      unfold addIncoming
      by_cases hd : d ∈ keysOf g
      · have hstep : updateComp g d (fun c => add_dependency c n true) = g := by
          refine updateComp_eq_self hnd ?_
          intro c hc
          exact add_dependency_true_self (h d (List.mem_cons_self d ds) c hc)
        rw [if_pos hd, hstep]
        exact ih g hnd (fun a ha => h a (List.mem_cons_of_mem d ha))
      · rw [if_neg hd]
        exact ih g hnd (fun a ha => h a (List.mem_cons_of_mem d ha))

theorem loadDepsList_ok_props (importable : String → Bool) (ignore : List String) :
    ∀ (ms : List String) (c c' : Comp),
      loadDepsList importable ignore ms c = Except.ok c' →
      c'.importNodes = c.importNodes ∧
      c'.members = c.members ∧
      c'.internal_dependents = c.internal_dependents ∧
      c'.abstract_classes = c.abstract_classes ∧
      c'.no_abstract_classes = c.no_abstract_classes ∧
      c'.instability = c.instability ∧
      c'.abstraction = c.abstraction ∧
      c'.distance = c.distance ∧
      (∀ x ∈ c.ext_dependencies, x ∈ c'.ext_dependencies) ∧
      (∀ x ∈ c'.ext_dependencies, x ∈ c.ext_dependencies ∨ x ∉ ignore) ∧
      (c'.ext_dependencies = [] → c.ext_dependencies = [] ∧ ∀ m ∈ ms, m ∈ ignore) := by
  intro ms
  induction ms with
  | nil =>
      intro c c' h
      cases h
      exact ⟨rfl, rfl, rfl, rfl, rfl, rfl, rfl, rfl, fun _ hx => hx,
        fun _ hx => Or.inl hx, fun hz => ⟨hz, by intro m hm; cases hm⟩⟩
  | cons m ms ih =>
      intro c c' h
      unfold loadDepsList at h
      by_cases him : m ∈ ignore
      · rw [if_pos him] at h
        obtain ⟨h1, h2, h3, h4, h5, h6, h7, h8, h9, h10, h11⟩ := ih c c' h
        refine ⟨h1, h2, h3, h4, h5, h6, h7, h8, h9, h10, ?_⟩
        intro hz
        obtain ⟨hce, hall⟩ := h11 hz
        refine ⟨hce, ?_⟩
        intro a ha
        rcases List.mem_cons.mp ha with rfl | ha2
        · exact him
        · exact hall a ha2
      · rw [if_neg him] at h
        by_cases himp : importable m
        · rw [if_pos himp] at h
          obtain ⟨h1, h2, h3, h4, h5, h6, h7, h8, h9, h10, h11⟩ :=
            ih (add_dependency c m false) c' h
          have hext : (add_dependency c m false).ext_dependencies =
              insertOnce m c.ext_dependencies := rfl
          refine ⟨h1, h2, h3, h4, h5, h6, h7, h8, ?_, ?_, ?_⟩
          · intro x hx
            exact h9 x (by rw [hext]; exact mem_insertOnce_of_mem m hx)
          · intro x hx
            rcases h10 x hx with hmem | hni
            · rw [hext] at hmem
              rcases mem_of_mem_insertOnce hmem with rfl | hmem2
              · exact Or.inr him
              · exact Or.inl hmem2
            · exact Or.inr hni
          · intro hz
            exfalso
            have := (h11 hz).1
            rw [hext] at this
            exact insertOnce_ne_nil m c.ext_dependencies this
        · rw [if_neg himp] at h
          cases h

theorem load_ok_fields {importable : String → Bool} {ignore : List String}
    {c c' : Comp} (h : load_dependenciesE importable ignore c = Except.ok c') :
    c'.importNodes = c.importNodes ∧
    c'.members = c.members ∧
    c'.internal_dependents = c.internal_dependents ∧
    c'.abstract_classes = c.abstract_classes ∧
    c'.no_abstract_classes = c.no_abstract_classes ∧
    c'.instability = c.instability ∧
    c'.abstraction = c.abstraction ∧
    c'.distance = c.distance ∧
    (∀ x ∈ c.ext_dependencies, x ∈ c'.ext_dependencies) ∧
    (∀ x ∈ c'.ext_dependencies, x ∈ c.ext_dependencies ∨ x ∉ ignore) := by
  unfold load_dependenciesE at h
  by_cases hg : c.ext_dependencies ≠ []
  · rw [if_pos hg] at h
    cases h
    exact ⟨rfl, rfl, rfl, rfl, rfl, rfl, rfl, rfl, fun _ hx => hx, fun _ hx => Or.inl hx⟩
  · rw [if_neg hg] at h
    obtain ⟨h1, h2, h3, h4, h5, h6, h7, h8, h9, h10, _⟩ :=
      loadDepsList_ok_props importable ignore _ c c' h
    exact ⟨h1, h2, h3, h4, h5, h6, h7, h8, h9, h10⟩

theorem get_dependencies_congr {importable : String → Bool} {c₁ c₂ : Comp}
    (h : c₁.importNodes = c₂.importNodes) :
    get_dependencies importable c₁ = get_dependencies importable c₂ := by
  unfold get_dependencies
  rw [h]

/-- A component on which `load_dependencies` has stabilised: either its
outgoing set is nonempty (the guard short-circuits) or every extracted
dependency name is ignored (the loop re-adds nothing). -/
def settledC (importable : String → Bool) (ignore : List String) (c : Comp) : Prop :=
  c.ext_dependencies ≠ [] ∨ ∀ m ∈ get_dependencies importable c, m ∈ ignore

theorem load_ok_settledC {importable : String → Bool} {ignore : List String}
    {c c' : Comp} (h : load_dependenciesE importable ignore c = Except.ok c') :
    settledC importable ignore c' := by
  unfold load_dependenciesE at h
  by_cases hg : c.ext_dependencies ≠ []
  · rw [if_pos hg] at h
    cases h
    exact Or.inl hg
  · rw [if_neg hg] at h
    obtain ⟨h1, _, _, _, _, _, _, _, _, _, h11⟩ :=
      loadDepsList_ok_props importable ignore _ c c' h
    by_cases hz : c'.ext_dependencies = []
    · refine Or.inr ?_
      rw [get_dependencies_congr h1]
      exact (h11 hz).2
    · exact Or.inl hz

theorem loadDepsList_all_ignored {importable : String → Bool} {ignore : List String} :
    ∀ (ms : List String), (∀ m ∈ ms, m ∈ ignore) →
      ∀ c : Comp, loadDepsList importable ignore ms c = Except.ok c := by
  intro ms
  induction ms with
  | nil => intro _ c; rfl
  | cons m ms ih =>
      intro h c
      unfold loadDepsList
      rw [if_pos (h m (List.mem_cons_self m ms))]
      exact ih (fun a ha => h a (List.mem_cons_of_mem m ha)) c

theorem load_of_settledC {importable : String → Bool} {ignore : List String}
    {c : Comp} (h : settledC importable ignore c) :
    load_dependenciesE importable ignore c = Except.ok c := by
  unfold load_dependenciesE
  by_cases hg : c.ext_dependencies ≠ []
  · rw [if_pos hg]
  · rw [if_neg hg]
    rcases h with h1 | h2
    · exact absurd h1 hg
    · exact loadDepsList_all_ignored _ h2 c

theorem settledC_evolved {importable : String → Bool} {ignore : List String}
    {n : String} {c c' : Comp} (hev : DepEvolved n c c')
    (h : settledC importable ignore c) : settledC importable ignore c' := by
  rcases h with h1 | h2
  · exact Or.inl (by rw [hev.2.2.1]; exact h1)
  · refine Or.inr ?_
    rw [get_dependencies_congr hev.1]
    exact h2

theorem process_ok_elim {importable : String → Bool} {ignore : List String}
    {g g' : Graph} {n : String}
    (h : processComponentE importable ignore g n = Except.ok g') :
    (lookupComp g n = none ∧ g' = g) ∨
    (∃ c c', lookupComp g n = some c ∧
      load_dependenciesE importable ignore c = Except.ok c' ∧
      g' = addIncoming n c'.ext_dependencies (updateComp g n (fun _ => c'))) := by
  unfold processComponentE at h
  split at h
  next hl => exact Or.inl ⟨hl, (Except.ok.inj h).symm⟩
  next c hl =>
    split at h
    next e hld => cases h
    next c' hld => exact Or.inr ⟨c, c', hl, hld, (Except.ok.inj h).symm⟩

theorem step_keys {importable : String → Bool} {ignore : List String}
    {g g' : Graph} {n : String}
    (h : processComponentE importable ignore g n = Except.ok g') :
    keysOf g' = keysOf g := by
  rcases process_ok_elim h with ⟨_, rfl⟩ | ⟨c, c', _, _, rfl⟩
  · rfl
  · rw [addIncoming_keys, keysOf_updateComp]

theorem step_lookup {importable : String → Bool} {ignore : List String}
    {g g' : Graph} {n : String}
    (h : processComponentE importable ignore g n = Except.ok g') :
    ∀ A cA', lookupComp g' A = some cA' →
      ∃ cA, lookupComp g A = some cA ∧
        (DepEvolved n cA cA' ∨
          (A = n ∧ ∃ c', load_dependenciesE importable ignore cA = Except.ok c' ∧
            DepEvolved n c' cA')) := by
  intro A cA' hA'
  rcases process_ok_elim h with ⟨hl, rfl⟩ | ⟨c, c', hl, hld, rfl⟩
  · exact ⟨cA', hA', Or.inl (depEvolved_refl n cA')⟩
  · by_cases hAn : A = n
    · subst hAn
      have hu : lookupComp (updateComp g A (fun _ => c')) A = some c' := by
        rw [lookupComp_updateComp_self, hl]
        rfl
      obtain ⟨cA'', hA'', hev⟩ := addIncoming_lookup A c'.ext_dependencies _ A c' hu
      rw [hA'] at hA''
      cases hA''
      exact ⟨c, hl, Or.inr ⟨rfl, c', hld, hev⟩⟩
    · have hmem : A ∈ keysOf g := by
        have h1 := mem_keys_of_lookup hA'
        rw [addIncoming_keys, keysOf_updateComp] at h1
        exact h1
      obtain ⟨cA, hcA⟩ := lookup_isSome_of_mem hmem
      have hu : lookupComp (updateComp g n (fun _ => c')) A = some cA := by
        rw [lookupComp_updateComp_ne hAn, hcA]
      obtain ⟨cA'', hA'', hev⟩ := addIncoming_lookup n c'.ext_dependencies _ A cA hu
      rw [hA'] at hA''
      cases hA''
      exact ⟨cA, hcA, Or.inl hev⟩

/-- Edge symmetry localized at a unit `A`: every outgoing edge of `A` whose
target is a key of the mapping is matched by the incoming edge `A` on the
target. -/
def symmAtA (g : Graph) (A : String) : Prop :=
  ∀ cA, lookupComp g A = some cA →
    ∀ B ∈ cA.ext_dependencies, B ∈ keysOf g →
      ∀ cB, lookupComp g B = some cB → A ∈ cB.internal_dependents

theorem step_symm_establish {importable : String → Bool} {ignore : List String}
    {g g' : Graph} {n : String}
    (h : processComponentE importable ignore g n = Except.ok g') :
    symmAtA g' n := by
  rcases process_ok_elim h with ⟨hl, rfl⟩ | ⟨c, c', hl, hld, rfl⟩
  · intro cA hcA
    rw [hl] at hcA
    cases hcA
  · intro cN' hcN' B hB hBk cB' hcB'
    have hu : lookupComp (updateComp g n (fun _ => c')) n = some c' := by
      rw [lookupComp_updateComp_self, hl]
      rfl
    obtain ⟨cN'', hN'', hev⟩ := addIncoming_lookup n c'.ext_dependencies _ n c' hu
    rw [hcN'] at hN''
    cases hN''
    have hBext : B ∈ c'.ext_dependencies := by
      rw [← hev.2.2.1]
      exact hB
    have hBku : B ∈ keysOf (updateComp g n (fun _ => c')) := by
      rw [keysOf_updateComp]
      have h1 := hBk
      rw [addIncoming_keys, keysOf_updateComp] at h1
      exact h1
    exact addIncoming_target n c'.ext_dependencies _ B hBext hBku cB' hcB'

theorem step_symm_preserve {importable : String → Bool} {ignore : List String}
    {g g' : Graph} {n A : String} (hAn : A ≠ n)
    (h : processComponentE importable ignore g n = Except.ok g')
    (hA : symmAtA g A) : symmAtA g' A := by
  intro cA' hcA' B hB hBk cB' hcB'
  obtain ⟨cA, hcA, hcase⟩ := step_lookup h A cA' hcA'
  have hevA : DepEvolved n cA cA' := by
    rcases hcase with hev | ⟨heq, _⟩
    · exact hev
    · exact absurd heq hAn
  have hBextA : B ∈ cA.ext_dependencies := by
    rw [← hevA.2.2.1]
    exact hB
  have hBkg : B ∈ keysOf g := by
    rw [← step_keys h]
    exact hBk
  obtain ⟨cB, hcB⟩ := lookup_isSome_of_mem hBkg
  have hmem : A ∈ cB.internal_dependents := hA cA hcA B hBextA hBkg cB hcB
  obtain ⟨cB₀, hcB₀, hcaseB⟩ := step_lookup h B cB' hcB'
  rw [hcB] at hcB₀
  cases hcB₀
  rcases hcaseB with hev | ⟨heq, c'', hld, hev⟩
  · exact hev.2.2.2.2.2.2.2.2.1 A hmem
  · have hint : c''.internal_dependents = cB.internal_dependents :=
      (load_ok_fields hld).2.2.1
    refine hev.2.2.2.2.2.2.2.2.1 A ?_
    rw [hint]
    exact hmem

theorem passAux_keys {importable : String → Bool} {ignore : List String} :
    ∀ (ks : List String) (g g' : Graph),
      passAux importable ignore ks g = Except.ok g' → keysOf g' = keysOf g := by
  intro ks
  induction ks with
  | nil =>
      intro g g' h
      cases h
      rfl
  | cons n ks ih =>
      intro g g' h
      unfold passAux at h
      split at h
      next e heq => cases h
      next g₁ heq => exact (ih g₁ g' h).trans (step_keys heq)

theorem passAux_preserve {importable : String → Bool} {ignore : List String}
    (P : Graph → Prop)
    (hstep : ∀ g n g', P g → processComponentE importable ignore g n = Except.ok g' → P g') :
    ∀ (ks : List String) (g g' : Graph), P g →
      passAux importable ignore ks g = Except.ok g' → P g' := by
  intro ks
  induction ks with
  | nil =>
      intro g g' hP h
      cases h
      exact hP
  | cons n ks ih =>
      intro g g' hP h
      unfold passAux at h
      split at h
      next e heq => cases h
      next g₁ heq => exact ih g₁ g' (hstep g n g₁ hP heq) h

theorem passAux_tracked {importable : String → Bool} {ignore : List String}
    (Q : Graph → String → Prop)
    (hest : ∀ g n g', processComponentE importable ignore g n = Except.ok g' → Q g' n)
    (hpres : ∀ g n g' A, A ≠ n →
      processComponentE importable ignore g n = Except.ok g' → Q g A → Q g' A) :
    ∀ (ks : List String) (g g' : Graph) (S : List String),
      passAux importable ignore ks g = Except.ok g' →
      (∀ A ∈ S, Q g A) → ∀ A, A ∈ S ∨ A ∈ ks → Q g' A := by
  intro ks
  induction ks with
  | nil =>
      intro g g' S h hS A hA
      cases h
      rcases hA with h1 | h2
      · exact hS A h1
      · cases h2
  | cons n ks ih =>
      intro g g' S h hS A hA
      unfold passAux at h
      split at h
      next e heq => cases h
      next g₁ heq =>
        refine ih g₁ g' (n :: S) h ?_ A ?_
        · intro B hB
          by_cases hBn : B = n
          · subst hBn
            exact hest g B g₁ heq
          · have hBS : B ∈ S := by
              rcases List.mem_cons.mp hB with heq2 | h2
              · exact absurd heq2 hBn
              · exact h2
            exact hpres g n g₁ B hBn heq (hS B hBS)
        · rcases hA with h1 | h2
          · exact Or.inl (List.mem_cons_of_mem n h1)
          · rcases List.mem_cons.mp h2 with rfl | h3
            · exact Or.inl (List.mem_cons_self A S)
            · exact Or.inr h3

theorem pass_symm {importable : String → Bool} {ignore : List String}
    {ks : List String} {g g' : Graph}
    (hok : passAux importable ignore ks g = Except.ok g') :
    ∀ A ∈ ks, symmAtA g' A := by
  intro A hA
  refine passAux_tracked symmAtA ?_ ?_ ks g g' [] hok ?_ A (Or.inr hA)
  · intro g₀ n g₁ hstep
    exact step_symm_establish hstep
  · intro g₀ n g₁ B hBn hstep hQ
    exact step_symm_preserve hBn hstep hQ
  · intro B hB
    cases hB

/-- C3: after the dependency-resolution pass completes over the mapping's
keys, every edge is symmetric — if the discovered unit `B` appears in the
discovered unit `A`'s outgoing set, then `A` appears in `B`'s incoming
set. -/
theorem pass_edge_symmetry (importable : String → Bool) (ignore : List String)
    (g g' : Graph)
    (hok : passAux importable ignore (keysOf g) g = Except.ok g')
    (A B : String) (cA cB : Comp)
    (hA : lookupComp g' A = some cA) (hB : lookupComp g' B = some cB)
    (hdep : B ∈ cA.ext_dependencies) :
    A ∈ cB.internal_dependents := by
  have hkeys := passAux_keys (keysOf g) g g' hok
  have hAk : A ∈ keysOf g := by
    rw [← hkeys]
    exact mem_keys_of_lookup hA
  have hBk : B ∈ keysOf g' := mem_keys_of_lookup hB
  exact pass_symm hok A hAk cA hA B hdep hBk cB hB

/-- Three fresh units where `a` imports `b` (and the unimportable-looking
name is absent); used by concrete witnesses of the pass lemmas. -/
def graphC3 : Graph :=
  [("a", ⟨[ImportNode.imp ["b"]], [], [], [], [], [], none, none, none⟩),
   ("b", ⟨[], [], [], [], [], [], none, none, none⟩)]

/-- An environment in which every module is importable; used by concrete
witnesses. -/
def envAll : String → Bool := fun _ => true

/-- The state of `graphC3` after the dependency pass: `a` has the outgoing
edge `b`, and `b` the incoming edge `a`. -/
def graphC3post : Graph :=
  [("a", ⟨[ImportNode.imp ["b"]], [], ["b"], [], [], [], none, none, none⟩),
   ("b", ⟨[], [], [], ["a"], [], [], none, none, none⟩)]

/-- Witness for `pass_edge_symmetry`: running the pass on `graphC3` (where
`a` imports `b`) yields `graphC3post`, in which `b ∈ ext(a)`, and the
theorem produces the symmetric incoming edge `a ∈ int(b)`. -/
theorem pass_edge_symmetry_witness :
    passAux envAll [] (keysOf graphC3) graphC3 = Except.ok graphC3post ∧
    "b" ∈ (⟨[ImportNode.imp ["b"]], [], ["b"], [], [], [], none, none, none⟩ : Comp).ext_dependencies ∧
    "a" ∈ (⟨[], [], [], ["a"], [], [], none, none, none⟩ : Comp).internal_dependents := by
  refine ⟨rfl, by decide, ?_⟩
  exact pass_edge_symmetry envAll [] graphC3 graphC3post rfl "a" "b"
    ⟨[ImportNode.imp ["b"]], [], ["b"], [], [], [], none, none, none⟩
    ⟨[], [], [], ["a"], [], [], none, none, none⟩ rfl rfl (by decide)

/-- The invariant carried through the pass for C8: keys are unchanged, no
stored outgoing edge carries an ignored name, and the component stored
under the ignored name `m` keeps its incoming set untouched. -/
def IgnoreInv (ignore : List String) (g₀ : Graph) (m : String) (g : Graph) : Prop :=
  keysOf g = keysOf g₀ ∧
  (∀ A cA, lookupComp g A = some cA → ∀ x ∈ cA.ext_dependencies, x ∉ ignore) ∧
  (lookupComp g m).map Comp.internal_dependents =
    (lookupComp g₀ m).map Comp.internal_dependents

theorem ignoreInv_step {importable : String → Bool} {ignore : List String}
    {g₀ : Graph} {m : String} (hm : m ∈ ignore) :
    ∀ (g : Graph) (n : String) (g' : Graph), IgnoreInv ignore g₀ m g →
      processComponentE importable ignore g n = Except.ok g' →
      IgnoreInv ignore g₀ m g' := by
  intro g n g' hP hok
  obtain ⟨hkeys, hclean, hint⟩ := hP
  have hclean' : ∀ A cA', lookupComp g' A = some cA' →
      ∀ x ∈ cA'.ext_dependencies, x ∉ ignore := by
    intro A cA' hA' x hx
    obtain ⟨cA, hcA, hcase⟩ := step_lookup hok A cA' hA'
    rcases hcase with hev | ⟨heq, c', hld, hev⟩
    · refine hclean A cA hcA x ?_
      rw [← hev.2.2.1]
      exact hx
    · have hx' : x ∈ c'.ext_dependencies := by
        rw [← hev.2.2.1]
        exact hx
      rcases (load_ok_fields hld).2.2.2.2.2.2.2.2.2 x hx' with hmem | hni
      · exact hclean A cA hcA x hmem
      · exact hni
  refine ⟨(step_keys hok).trans hkeys, hclean', ?_⟩
  rcases process_ok_elim hok with ⟨hl, rfl⟩ | ⟨c, c', hl, hld, rfl⟩
  · exact hint
  · have hmds : m ∉ c'.ext_dependencies := by
      intro hmem
      rcases (load_ok_fields hld).2.2.2.2.2.2.2.2.2 m hmem with hmem2 | hni
      · exact hclean n c hl m hmem2 hm
      · exact hni hm
    rw [addIncoming_lookup_not_mem n c'.ext_dependencies hmds]
    by_cases hnm : n = m
    · subst hnm
      rw [lookupComp_updateComp_self, hl]
      have : c'.internal_dependents = c.internal_dependents :=
        (load_ok_fields hld).2.2.1
      rw [← hint, hl]
      simp [this]
    · rw [lookupComp_updateComp_ne (fun heq => hnm heq.symm)]
      exact hint

/-- C8: a name on the (merged) ignore list is never turned into a
dependency unit during resolution: starting from a freshly discovered
graph (empty outgoing sets), after the pass no unit's outgoing set
contains the ignored name `m` (so `m` adds to no unit's Ce, and no
placeholder `SourceUnit` is ever constructed for it — units for extracted
names are created exactly when they are recorded as outgoing edges), the
key set is unchanged, and the unit named `m` (if one was discovered) keeps
its incoming set unchanged (so `m` adds to no unit's Ca). -/
theorem ignore_list_excluded (importable : String → Bool) (ignore : List String)
    (g g₁ : Graph) (m : String) (hm : m ∈ ignore)
    (hfresh : ∀ A cA, lookupComp g A = some cA → cA.ext_dependencies = [])
    (hok : passAux importable ignore (keysOf g) g = Except.ok g₁) :
    keysOf g₁ = keysOf g ∧
    (∀ A cA, lookupComp g₁ A = some cA → m ∉ cA.ext_dependencies) ∧
    (lookupComp g₁ m).map Comp.internal_dependents =
      (lookupComp g m).map Comp.internal_dependents := by
  have hinit : IgnoreInv ignore g m g := by
    refine ⟨rfl, ?_, rfl⟩
    intro A cA hA x hx
    rw [hfresh A cA hA] at hx
    cases hx
  have hfinal := passAux_preserve (IgnoreInv ignore g m) (ignoreInv_step hm)
    (keysOf g) g g₁ hinit hok
  exact ⟨hfinal.1, fun A cA hA hmem => hfinal.2.1 A cA hA m hmem hm, hfinal.2.2⟩

/-- Fresh two-unit graph where `a` imports `b` and the ignored `typing`;
used by concrete witnesses. -/
def graphC8 : Graph :=
  [("a", ⟨[ImportNode.imp ["typing", "b"]], [], [], [], [], [], none, none, none⟩),
   ("typing", ⟨[], [], [], [], [], [], none, none, none⟩)]

/-- The state of `graphC8` after the pass with `typing` ignored: only the
edge to `b` is recorded; the discovered unit named `typing` gains no
incoming edge. -/
def graphC8post : Graph :=
  [("a", ⟨[ImportNode.imp ["typing", "b"]], [], ["b"], [], [], [], none, none, none⟩),
   ("typing", ⟨[], [], [], [], [], [], none, none, none⟩)]

/-- Witness for `ignore_list_excluded`: ignoring `typing` over `graphC8`
leaves the keys unchanged, keeps `typing` out of every outgoing set, and
leaves the discovered `typing` unit's incoming set untouched. -/
theorem ignore_list_excluded_witness :
    passAux envAll nativeIgnoreList (keysOf graphC8) graphC8 = Except.ok graphC8post ∧
    keysOf graphC8post = keysOf graphC8 ∧
    (∀ A cA, lookupComp graphC8post A = some cA → "typing" ∉ cA.ext_dependencies) ∧
    (lookupComp graphC8post "typing").map Comp.internal_dependents =
      (lookupComp graphC8 "typing").map Comp.internal_dependents := by
  refine ⟨rfl, ?_⟩
  refine ignore_list_excluded envAll nativeIgnoreList graphC8 graphC8post "typing"
    (by decide) ?_ rfl
  intro A cA hA
  unfold graphC8 at hA
  rw [lookupComp_cons] at hA
  by_cases h1 : ("a" : String) = A
  · rw [if_pos h1] at hA
    cases hA
    rfl
  · rw [if_neg h1, lookupComp_cons] at hA
    by_cases h2 : ("typing" : String) = A
    · rw [if_pos h2] at hA
      cases hA
      rfl
    · rw [if_neg h2] at hA
      cases hA

/-- The component stored under `A` is settled for `load_dependencies`. -/
def settledAt (importable : String → Bool) (ignore : List String)
    (g : Graph) (A : String) : Prop :=
  ∀ cA, lookupComp g A = some cA → settledC importable ignore cA

theorem step_settled_establish {importable : String → Bool} {ignore : List String}
    {g g' : Graph} {n : String}
    (h : processComponentE importable ignore g n = Except.ok g') :
    settledAt importable ignore g' n := by
  rcases process_ok_elim h with ⟨hl, rfl⟩ | ⟨c, c', hl, hld, rfl⟩
  · intro cA hcA
    rw [hl] at hcA
    cases hcA
  · intro cA hcA
    have hu : lookupComp (updateComp g n (fun _ => c')) n = some c' := by
      rw [lookupComp_updateComp_self, hl]
      rfl
    obtain ⟨cN', hN', hev⟩ := addIncoming_lookup n c'.ext_dependencies _ n c' hu
    rw [hcA] at hN'
    cases hN'
    exact settledC_evolved hev (load_ok_settledC hld)

theorem step_settled_preserve {importable : String → Bool} {ignore : List String}
    {g g' : Graph} {n A : String} (hAn : A ≠ n)
    (h : processComponentE importable ignore g n = Except.ok g')
    (hA : settledAt importable ignore g A) : settledAt importable ignore g' A := by
  intro cA' hcA'
  obtain ⟨cA, hcA, hcase⟩ := step_lookup h A cA' hcA'
  rcases hcase with hev | ⟨heq, _⟩
  · exact settledC_evolved hev (hA cA hcA)
  · exact absurd heq hAn

theorem pass_settled {importable : String → Bool} {ignore : List String}
    {ks : List String} {g g' : Graph}
    (hok : passAux importable ignore ks g = Except.ok g') :
    ∀ A ∈ ks, settledAt importable ignore g' A := by
  intro A hA
  refine passAux_tracked (settledAt importable ignore) ?_ ?_ ks g g' [] hok ?_ A (Or.inr hA)
  · intro g₀ n g₁ hstep
    exact step_settled_establish hstep
  · intro g₀ n g₁ B hBn hstep hQ
    exact step_settled_preserve hBn hstep hQ
  · intro B hB
    cases hB

theorem process_fix {importable : String → Bool} {ignore : List String}
    {g : Graph} {n : String} (hnd : (keysOf g).Nodup) (hsym : symmAtA g n)
    (hset : settledAt importable ignore g n) :
    processComponentE importable ignore g n = Except.ok g := by
  unfold processComponentE
  cases hl : lookupComp g n with
  | none => rfl
  | some c =>
      have hload : load_dependenciesE importable ignore c = Except.ok c :=
        load_of_settledC (hset c hl)
      show (match load_dependenciesE importable ignore c with
        | Except.error e => Except.error e
        | Except.ok c' =>
            Except.ok (addIncoming n c'.ext_dependencies (updateComp g n (fun _ => c')))) =
        Except.ok g
      rw [hload]
      show Except.ok (addIncoming n c.ext_dependencies (updateComp g n (fun _ => c))) =
        Except.ok g
      have hupd : updateComp g n (fun _ => c) = g := by
        refine updateComp_eq_self hnd ?_
        intro c₀ h₀
        rw [hl] at h₀
        cases h₀
        rfl
      rw [hupd]
      have hfix : addIncoming n c.ext_dependencies g = g := by
        refine addIncoming_fix n c.ext_dependencies g hnd ?_
        intro d hd cd hcd
        exact hsym c hl d hd (mem_keys_of_lookup hcd) cd hcd
      rw [hfix]

theorem passAux_fix {importable : String → Bool} {ignore : List String} {g : Graph} :
    ∀ ks : List String,
      (∀ n ∈ ks, processComponentE importable ignore g n = Except.ok g) →
      passAux importable ignore ks g = Except.ok g := by
  intro ks
  induction ks with
  | nil => intro _; rfl
  | cons n ks ih =>
      intro h
      unfold passAux
      rw [h n (List.mem_cons_self n ks)]
      exact ih (fun a ha => h a (List.mem_cons_of_mem n ha))

/-- Embeds `_load_classes` (src/components.py:161-163): run `load_classes` over
every component (each call touches only its own component). -/
def loadClassesPass (g : Graph) : Graph :=
  g.map (fun p => (p.1, load_classes p.2))

theorem add_class_populated (c : Comp) (m : PyClass) :
    (add_class c m).no_abstract_classes ≠ [] ∨ (add_class c m).abstract_classes ≠ [] := by
  unfold add_class
  by_cases h : m.isAbstract
  · rw [if_pos h]
    exact Or.inr (by simp)
  · rw [if_neg h]
    exact Or.inl (by simp)

theorem classesFold_populated (ms : List PyClass) :
    ∀ acc : Comp, (acc.no_abstract_classes ≠ [] ∨ acc.abstract_classes ≠ []) →
      ((ms.foldl (fun acc m => if depend_of acc m.module then acc else add_class acc m) acc).no_abstract_classes ≠ [] ∨
       (ms.foldl (fun acc m => if depend_of acc m.module then acc else add_class acc m) acc).abstract_classes ≠ []) := by
  induction ms with
  | nil => intro acc h; exact h
  | cons m ms ih =>
      intro acc h
      rw [List.foldl_cons]
      by_cases hd : depend_of acc m.module
      · rw [if_pos hd]
        exact ih acc h
      · rw [if_neg hd]
        exact ih (add_class acc m) (add_class_populated acc m)

theorem classesFold_cases (ms : List PyClass) :
    ∀ acc : Comp,
      ms.foldl (fun acc m => if depend_of acc m.module then acc else add_class acc m) acc = acc ∨
      ((ms.foldl (fun acc m => if depend_of acc m.module then acc else add_class acc m) acc).no_abstract_classes ≠ [] ∨
       (ms.foldl (fun acc m => if depend_of acc m.module then acc else add_class acc m) acc).abstract_classes ≠ []) := by
  induction ms with
  | nil => intro acc; exact Or.inl rfl
  | cons m ms ih =>
      intro acc
      rw [List.foldl_cons]
      by_cases hd : depend_of acc m.module
      · rw [if_pos hd]
        exact ih acc
      · rw [if_neg hd]
        exact Or.inr (classesFold_populated ms (add_class acc m) (add_class_populated acc m))

theorem load_classes_idem (c : Comp) :
    load_classes (load_classes c) = load_classes c := by
  by_cases hg : c.no_abstract_classes ≠ [] ∨ c.abstract_classes ≠ []
  · have h1 : load_classes c = c := by
      unfold load_classes
      rw [if_pos hg]
    rw [h1, h1]
  · have h1 : load_classes c =
        c.members.foldl (fun acc m => if depend_of acc m.module then acc else add_class acc m) c := by
      unfold load_classes
      rw [if_neg hg]
    rcases classesFold_cases c.members c with heq | hp
    · rw [h1, heq, h1, heq]
    · have h2 : load_classes
          (c.members.foldl (fun acc m => if depend_of acc m.module then acc else add_class acc m) c) =
          c.members.foldl (fun acc m => if depend_of acc m.module then acc else add_class acc m) c := by
        unfold load_classes
        rw [if_pos hp]
      rw [h1, h2]

theorem loadClassesPass_idem (g : Graph) :
    loadClassesPass (loadClassesPass g) = loadClassesPass g := by
  induction g with
  | nil => rfl
  | cons p rest ih =>
      show (p.1, load_classes (load_classes p.2)) :: loadClassesPass (loadClassesPass rest) =
        (p.1, load_classes p.2) :: loadClassesPass rest
      rw [load_classes_idem, ih]

/-- C4: both graph passes are idempotent.  If the dependency-resolution
pass over a (unique-keyed) mapping succeeds, running it again on the
result is a no-op returning the very same graph — hence identical
dependency sets, dependent sets, class lists and (as functions of those)
metric values; and the type-classification pass satisfies
`pass ∘ pass = pass` on every graph unconditionally. -/
theorem passes_idempotent (importable : String → Bool) (ignore : List String)
    (g g₁ : Graph) (hnd : (keysOf g).Nodup)
    (hok : passAux importable ignore (keysOf g) g = Except.ok g₁) :
    passAux importable ignore (keysOf g₁) g₁ = Except.ok g₁ ∧
    ∀ g₂ : Graph, loadClassesPass (loadClassesPass g₂) = loadClassesPass g₂ := by
  constructor
  · have hkeys : keysOf g₁ = keysOf g := passAux_keys (keysOf g) g g₁ hok
    have hnd₁ : (keysOf g₁).Nodup := by
      rw [hkeys]
      exact hnd
    refine passAux_fix (keysOf g₁) ?_
    intro n hn
    have hn' : n ∈ keysOf g := by
      rw [← hkeys]
      exact hn
    exact process_fix hnd₁ (pass_symm hok n hn') (pass_settled hok n hn')
  · intro g₂
    exact loadClassesPass_idem g₂

/-- Witness for `passes_idempotent`: the pass on `graphC3` yields
`graphC3post`; running it again returns `graphC3post` unchanged, and the
classes pass is idempotent (exercised on `graphC3post`). -/
theorem passes_idempotent_witness :
    passAux envAll [] (keysOf graphC3post) graphC3post = Except.ok graphC3post ∧
    loadClassesPass (loadClassesPass graphC3post) = loadClassesPass graphC3post := by
  have h := passes_idempotent envAll [] graphC3 graphC3post (by decide) rfl
  exact ⟨h.1, h.2 graphC3post⟩

/-- The contents of the caller's `ignore_dependencies` list object after
`ModuleComponentLoader._load_dependencies` returns (src/components.py:
165-170).  `if not ignore_dependencies: ignore_dependencies = []` rebinds
the local name to a fresh list when the argument is falsy — `None` or an
empty list — so in that case the caller's own list object is never
touched; otherwise `ignore_dependencies += self.ignore_dependencies`
extends the caller's list object in place with the loader's built-in
entries (`["abc", "typing"]`, installed by `_ignore_native_library`). -/
def callerIgnoreAfter (l : List String) : List String :=
  if l = [] then l else l ++ nativeIgnoreList

/-- C10 counterexample: the claim says the caller's list grows by the
built-in entries after EVERY call with a list argument, but an empty list
argument is falsy, gets replaced by a fresh list, and is not mutated. -/
theorem caller_ignore_mutation_cex :
    callerIgnoreAfter [] ≠ [] ++ nativeIgnoreList := by
  decide

/-- C10 amended: `_load_dependencies` mutates the caller-supplied
`ignore_dependencies` list in place for every NONEMPTY list argument —
after the call that list has grown by the loader's built-in entries
`"abc"`, `"typing"`; an empty list argument is rebound to a fresh list and
the caller's object is left untouched. -/
theorem caller_ignore_mutation (l : List String) (h : l ≠ []) :
    callerIgnoreAfter l = l ++ nativeIgnoreList := by
  unfold callerIgnoreAfter
  rw [if_neg h]

/-- Witness for `caller_ignore_mutation`: a caller passing `["os"]` finds
`["os", "abc", "typing"]` in its own list afterwards. -/
theorem caller_ignore_mutation_witness :
    callerIgnoreAfter ["os"] = ["os"] ++ nativeIgnoreList :=
  caller_ignore_mutation ["os"] (by decide)

end Basel
